import Mathlib

/-!
Verification of the SimOTA label-assignment procedure
(mmdet/core/bbox/assigners/sim_ota_assigner.py).

The Python code is shallowly embedded as Lean functions:

* tensors become lists (matrices are lists of rows);
* float arithmetic of the matching logic is modelled over an ordered ring
  (instantiated at ℝ for the cost formulas, which involve log and sqrt, and
  at ℤ/ℚ for concrete evaluations);
* fallible torch operations (torch.topk with k larger than the dimension
  being selected from) return Except;
* the try/except RuntimeError control flow of SimOTAAssigner.assign is
  modelled by an explicit exception-class type.
-/

namespace SimOTA

/-- Failures raised by the embedded torch operations.  torch.topk raises
a RuntimeError (message: selected index k out of range) when k exceeds the
size of the selected dimension. -/
inductive TorchError where
  | topkOutOfRange : TorchError

/-- Python exception classes relevant to SimOTAAssigner.assign, which wraps
the pipeline in try/except RuntimeError.  In torch, CUDA out-of-memory
failures are (a subclass of) RuntimeError, and shape/broadcast mismatches in
tensor arithmetic (e.g. in F.binary_cross_entropy when the two operands do
not broadcast) are also raised as RuntimeError; boolean-mask indexing with a
mask of the wrong length raises IndexError, and failed asserts raise
AssertionError, neither of which is a RuntimeError. -/
inductive PyException where
  | cudaOutOfMemory : PyException
  | runtimeShapeMismatch : PyException
  | indexError : PyException
  | assertionError : PyException

/-- Whether an exception is (a subclass of) RuntimeError, i.e. whether the
except RuntimeError clause in SimOTAAssigner.assign catches it. -/
def PyException.isRuntimeError : PyException → Bool
  | .cudaOutOfMemory => true
  | .runtimeShapeMismatch => true
  | .indexError => false
  | .assertionError => false

/-- A prior: one anchor location, [cx, cy, stride_w, stride_h] (one row of
the priors tensor). -/
structure Prior (α : Type*) where
  x : α
  y : α
  stride_x : α
  stride_y : α

/-- An axis-aligned box [tl_x, tl_y, br_x, br_y] (one row of gt_bboxes or
decoded_bboxes). -/
structure Box (α : Type*) where
  x1 : α
  y1 : α
  x2 : α
  y2 : α

variable {α : Type*} {β : Type*}

/-- Boolean-mask row selection t[mask] : keeps the rows of t at the
positions where mask is true (all source uses have mask.length =
rows.length). -/
def maskRows (mask : List Bool) (rows : List β) : List β :=
  ((rows.zip mask).filter (fun rb => rb.2)).map (fun rb => rb.1)

/-- One entry of is_in_gts in get_in_gt_and_in_center_info: the four margins
l_ = x - gx1, t_ = y - gy1, r_ = gx2 - x, b_ = gy2 - y are stacked and the
prior is in the box iff their minimum is strictly positive. -/
def is_in_gt [LinearOrderedField α] (p : Prior α) (g : Box α) : Bool :=
  decide (0 < min (min (p.x - g.x1) (p.y - g.y1)) (min (g.x2 - p.x) (g.y2 - p.y)))

/-- One entry of is_in_cts in get_in_gt_and_in_center_info: the margins of
the prior center to the center region of the ground truth (centroid ±
center_radius * stride), in the box iff their minimum is strictly
positive. -/
def is_in_ct [LinearOrderedField α] (center_radius : α) (p : Prior α) (g : Box α) : Bool :=
  let gt_cx := (g.x1 + g.x2) / 2
  let gt_cy := (g.y1 + g.y2) / 2
  let ct_box_l := gt_cx - center_radius * p.stride_x
  let ct_box_t := gt_cy - center_radius * p.stride_y
  let ct_box_r := gt_cx + center_radius * p.stride_x
  let ct_box_b := gt_cy + center_radius * p.stride_y
  decide (0 < min (min (p.x - ct_box_l) (p.y - ct_box_t)) (min (ct_box_r - p.x) (ct_box_b - p.y)))

/-- SimOTAAssigner.get_in_gt_and_in_center_info: returns
(is_in_gts_or_centers, is_in_boxes_and_centers).  The first component is the
per-prior validity mask (in some box OR in some center region); the second
is the per-(valid prior, gt) conjunction matrix, row-restricted by the mask
(is_in_gts[is_in_gts_or_centers, :] & is_in_cts[is_in_gts_or_centers, :]).
The .sum(dim=1) > 0 reductions on boolean tensors are List.any. -/
def get_in_gt_and_in_center_info [LinearOrderedField α] (center_radius : α)
    (priors : List (Prior α)) (gt_bboxes : List (Box α)) :
    List Bool × List (List Bool) :=
  let is_in_gts := priors.map (fun p => gt_bboxes.map (fun g => is_in_gt p g))
  let is_in_gts_all := is_in_gts.map (fun row => row.any id)
  let is_in_cts := priors.map (fun p => gt_bboxes.map (fun g => is_in_ct center_radius p g))
  let is_in_cts_all := is_in_cts.map (fun row => row.any id)
  let is_in_gts_or_centers := List.zipWith (fun a b => a || b) is_in_gts_all is_in_cts_all
  let both := List.zipWith (fun r c => List.zipWith (fun a b => a && b) r c) is_in_gts is_in_cts
  (is_in_gts_or_centers, maskRows is_in_gts_or_centers both)

/-- SimOTAAssigner.assign, the resource-fallback controller: the body runs
self._assign and returns its result; except RuntimeError reruns _assign on
CPU copies of the inputs and returns that second outcome (after .to(...)
relocation, which is the identity on the carried values).  The two attempts
are passed as their outcomes.  Exceptions that are not RuntimeError
propagate unmodified. -/
def assign {R : Type*} (primaryAttempt : Except PyException R)
    (cpuAttempt : Except PyException R) : Except PyException R :=
  match primaryAttempt with
  | .ok r => .ok r
  | .error e => if e.isRuntimeError then cpuAttempt else .error e

/-- Predicate form of the in-box test: all four margins from the prior
center to the ground-truth box edges are strictly positive. -/
def InBox [LinearOrderedField α] (p : Prior α) (g : Box α) : Prop :=
  0 < p.x - g.x1 ∧ 0 < p.y - g.y1 ∧ 0 < g.x2 - p.x ∧ 0 < g.y2 - p.y

/-- Predicate form of the in-center test: all four margins from the prior
center to the center region (the ground-truth centroid expanded by
center_radius times the prior stride in each direction) are strictly
positive. -/
def InCenter [LinearOrderedField α] (cr : α) (p : Prior α) (g : Box α) : Prop :=
  0 < p.x - ((g.x1 + g.x2) / 2 - cr * p.stride_x) ∧
  0 < p.y - ((g.y1 + g.y2) / 2 - cr * p.stride_y) ∧
  0 < ((g.x1 + g.x2) / 2 + cr * p.stride_x) - p.x ∧
  0 < ((g.y1 + g.y2) / 2 + cr * p.stride_y) - p.y

instance [LinearOrderedField α] (p : Prior α) (g : Box α) : Decidable (InBox p g) := by
  unfold InBox; infer_instance

instance [LinearOrderedField α] (cr : α) (p : Prior α) (g : Box α) :
    Decidable (InCenter cr p g) := by
  unfold InCenter; infer_instance

theorem any_map_gen {γ δ : Type*} (f : γ → δ) (p : δ → Bool) (l : List γ) :
    (l.map f).any p = l.any (p ∘ f) := by
  induction l with
  | nil => rfl
  | cons a l ih => simp [List.any_cons, ih]

theorem is_in_gt_eq_decide [LinearOrderedField α] (p : Prior α) (g : Box α) :
    is_in_gt p g = decide (InBox p g) := by
  simp only [is_in_gt, InBox, decide_eq_decide, lt_min_iff, and_assoc]

theorem is_in_ct_eq_decide [LinearOrderedField α] (cr : α) (p : Prior α) (g : Box α) :
    is_in_ct cr p g = decide (InCenter cr p g) := by
  simp only [is_in_ct, InCenter, decide_eq_decide, lt_min_iff, and_assoc]

theorem info_fst_eq_map [LinearOrderedField α] (cr : α)
    (priors : List (Prior α)) (gts : List (Box α)) :
    (get_in_gt_and_in_center_info cr priors gts).1 =
      priors.map (fun p => (gts.map (fun g => is_in_gt p g)).any id ||
        (gts.map (fun g => is_in_ct cr p g)).any id) := by
  unfold get_in_gt_and_in_center_info
  simp [List.map_map, List.zipWith_map, List.zipWith_same, Function.comp]

theorem info_snd_eq_maskRows [LinearOrderedField α] (cr : α)
    (priors : List (Prior α)) (gts : List (Box α)) :
    (get_in_gt_and_in_center_info cr priors gts).2 =
      maskRows (get_in_gt_and_in_center_info cr priors gts).1
        (priors.map (fun p => gts.map (fun g => is_in_gt p g && is_in_ct cr p g))) := by
  conv_lhs => unfold get_in_gt_and_in_center_info
  rw [info_fst_eq_map]
  simp [List.zipWith_map, List.zipWith_same]

/-- C7: valid_mask[i] is true iff prior i is in-box or in-center for at
least one ground truth, where in-box means all four margins to the box edges
are strictly positive and in-center means all four margins to the
center-radius region (scaled by the prior's own stride) are strictly
positive; and the in_box_and_center matrix is the restriction, to the valid
priors, of the pairwise conjunction of the two tests. -/
theorem get_info_characterization [LinearOrderedField α] (cr : α)
    (priors : List (Prior α)) (gts : List (Box α)) (i : Nat) (hi : i < priors.length) :
    (get_in_gt_and_in_center_info cr priors gts).1.length = priors.length ∧
    ((get_in_gt_and_in_center_info cr priors gts).1.getD i false = true ↔
      ∃ g ∈ gts, InBox priors[i] g ∨ InCenter cr priors[i] g) ∧
    (get_in_gt_and_in_center_info cr priors gts).2 =
      maskRows (get_in_gt_and_in_center_info cr priors gts).1
        (priors.map (fun p => gts.map (fun g => decide (InBox p g ∧ InCenter cr p g)))) := by
  refine ⟨?_, ?_, ?_⟩
  · rw [info_fst_eq_map]; simp
  · rw [info_fst_eq_map]
    rw [List.getD_eq_getElem _ _ (by simpa using hi), List.getElem_map]
    rw [any_map_gen, any_map_gen]
    simp only [Function.comp_def, id, List.any_eq_true,
      is_in_gt_eq_decide, is_in_ct_eq_decide, decide_eq_true_eq, Bool.or_eq_true]
    constructor
    · rintro (⟨g, hg, h⟩ | ⟨g, hg, h⟩)
      · exact ⟨g, hg, Or.inl h⟩
      · exact ⟨g, hg, Or.inr h⟩
    · rintro ⟨g, hg, h | h⟩
      · exact Or.inl ⟨g, hg, h⟩
      · exact Or.inr ⟨g, hg, h⟩
  · rw [info_snd_eq_maskRows]
    simp only [is_in_gt_eq_decide, is_in_ct_eq_decide, ← Bool.decide_and]

/-- Witness for C7 at a concrete input (the prior is inside the single
ground-truth box and its center region). -/
theorem get_info_characterization_witness :
    (0 : Nat) < [(⟨20, 20, 8, 8⟩ : Prior ℚ)].length ∧
    ((get_in_gt_and_in_center_info (5/2 : ℚ) [⟨20, 20, 8, 8⟩] [⟨10, 10, 50, 50⟩]).1.length =
        [(⟨20, 20, 8, 8⟩ : Prior ℚ)].length ∧
      ((get_in_gt_and_in_center_info (5/2 : ℚ) [⟨20, 20, 8, 8⟩] [⟨10, 10, 50, 50⟩]).1.getD 0 false
          = true ↔
        ∃ g ∈ [(⟨10, 10, 50, 50⟩ : Box ℚ)],
          InBox [(⟨20, 20, 8, 8⟩ : Prior ℚ)][0] g ∨
            InCenter (5/2 : ℚ) [(⟨20, 20, 8, 8⟩ : Prior ℚ)][0] g) ∧
      (get_in_gt_and_in_center_info (5/2 : ℚ) [⟨20, 20, 8, 8⟩] [⟨10, 10, 50, 50⟩]).2 =
        maskRows (get_in_gt_and_in_center_info (5/2 : ℚ) [⟨20, 20, 8, 8⟩] [⟨10, 10, 50, 50⟩]).1
          ([(⟨20, 20, 8, 8⟩ : Prior ℚ)].map
            (fun p => [(⟨10, 10, 50, 50⟩ : Box ℚ)].map
              (fun g => decide (InBox p g ∧ InCenter (5/2 : ℚ) p g))))) :=
  ⟨by decide, get_info_characterization (5/2 : ℚ) [⟨20, 20, 8, 8⟩] [⟨10, 10, 50, 50⟩] 0 (by decide)⟩

/-- C1 counterexample: a primary failure that is a shape/broadcast-mismatch
RuntimeError (not resource exhaustion) is retried rather than propagated:
with a fallback attempt that succeeds, the controller returns the fallback
result instead of the original failure. -/
theorem assign_shape_mismatch_retried :
    assign (Except.error PyException.runtimeShapeMismatch) (Except.ok (0 : Nat)) =
      Except.ok 0 ∧
    (Except.ok (0 : Nat) : Except PyException Nat) ≠
      Except.error PyException.runtimeShapeMismatch :=
  ⟨rfl, fun h => Except.noConfusion h⟩

/-- C1 amended: the controller retries on the fallback resource exactly when
the primary failure is a RuntimeError — the exception class torch uses for
resource exhaustion but also e.g. for broadcast shape mismatches — returning
the fallback attempt's outcome in that case; a failure that is not a
RuntimeError propagates to the caller unmodified without a retry, and a
success is returned directly. -/
theorem assign_retry_policy {R : Type*} (e : PyException) (fb : Except PyException R) (r : R)
    (h : e.isRuntimeError = false) :
    assign (Except.ok r) fb = Except.ok r ∧
    assign (Except.error e) fb = Except.error e ∧
    ∀ fb2 : Except PyException R, assign (Except.error PyException.cudaOutOfMemory) fb2 = fb2 := by
  refine ⟨rfl, ?_, fun fb2 => rfl⟩
  simp [assign, h]

/-- Witness for C1 amended at concrete outcomes (IndexError is not a
RuntimeError). -/
theorem assign_retry_policy_witness :
    PyException.isRuntimeError PyException.indexError = false ∧
    (assign (Except.ok (7 : Nat)) (Except.ok 5) = Except.ok 7 ∧
      assign (Except.error PyException.indexError) (Except.ok (5 : Nat)) =
        Except.error PyException.indexError ∧
      ∀ fb2 : Except PyException Nat,
        assign (Except.error PyException.cudaOutOfMemory) fb2 = fb2) :=
  ⟨rfl, assign_retry_policy PyException.indexError (Except.ok 5) 7 rfl⟩

/-- Stable insertion into a sorted list (auxiliary of sortBy). -/
def insertSorted (le : β → β → Bool) (x : β) : List β → List β
  | [] => [x]
  | y :: ys => if le x y then x :: y :: ys else y :: insertSorted le x ys

/-- Stable insertion sort, used to model the value selection of torch.topk
(torch returns the k largest, resp. smallest, entries; the order among equal
entries is implementation-defined there, modelled here as stable). -/
def sortBy (le : β → β → Bool) : List β → List β
  | [] => []
  | x :: xs => insertSorted le x (sortBy le xs)

/-- Column j of a row-major matrix (all source matrices are rectangular, so
the getD default is never hit in the modelled uses). -/
def col [LinearOrderedCommRing α] (m : List (List α)) (j : Nat) : List α :=
  m.map (fun row => row.getD j 0)

/-- Values of torch.topk(xs, k) along a column: the k largest entries. -/
def topk_values [LinearOrderedCommRing α] (xs : List α) (k : Nat) : List α :=
  (sortBy (fun a b => decide (b ≤ a)) xs).take k

/-- Tensor.int(): cast to integer, truncating toward zero. -/
def truncInt [LinearOrderedRing α] [FloorRing α] (q : α) : ℤ :=
  if 0 ≤ q then ⌊q⌋ else -⌊-q⌋

/-- Lines 190-193 of sim_ota_assigner.py: topk_ious, _ =
torch.topk(pair_wise_ious, self.candidate_topk, dim=0) followed by
dynamic_ks = torch.clamp(topk_ious.sum(0).int(), min=1).  torch.topk raises
a RuntimeError when candidate_topk exceeds the number of rows (there is no
min(candidate_topk, Nv) clamp in this version of the code). -/
def dynamic_ks [LinearOrderedCommRing α] [FloorRing α] (candidate_topk : Nat)
    (pair_wise_ious : List (List α)) (num_gt : Nat) : Except TorchError (List ℤ) :=
  if candidate_topk ≤ pair_wise_ious.length then
    Except.ok ((List.range num_gt).map (fun j =>
      max 1 (truncInt ((topk_values (col pair_wise_ious j) candidate_topk).sum))))
  else Except.error TorchError.topkOutOfRange

/-- Modelled from the spec (reference formula for comparison with
dynamic_ks): for ground-truth column j, take the min(candidate_topk, Nv)
largest IoU values in that column, sum them, clamp the sum's floor to
integer with a minimum of 1. -/
def spec_dynamic_k [LinearOrderedCommRing α] [FloorRing α] (candidate_topk : Nat)
    (pair_wise_ious : List (List α)) (j : Nat) : ℤ :=
  max 1 ⌊(topk_values (col pair_wise_ious j) (min candidate_topk pair_wise_ious.length)).sum⌋

/-- Indices chosen by torch.topk(cost_col, k, largest=False): the k entries
of smallest cost.  torch's tie order among equal costs is
implementation-defined; it is modelled as lowest-original-index-first. -/
def pos_idx [LinearOrderedCommRing α] (cost_col : List α) (k : Nat) : List Nat :=
  ((sortBy (fun a b => decide (a.2 < b.2) || (decide (a.2 = b.2) && decide (a.1 ≤ b.1)))
      cost_col.enum).take k).map Prod.fst

/-- Lines 194-198 of sim_ota_assigner.py: matching_matrix =
torch.zeros_like(cost), then for each gt column the dynamic_ks[j] smallest-
cost rows are set to 1 (the columns are written independently, so the loop
is modelled as a direct matrix construction).  The per-column
torch.topk(cost[:, j], k=dynamic_ks[j].item(), largest=False) raises a
RuntimeError when the requested k exceeds the column length. -/
def select_matching [LinearOrderedCommRing α] (cost : List (List α)) (ks : List ℤ)
    (num_gt : Nat) : Except TorchError (List (List α)) :=
  if (List.range num_gt).all (fun j => (ks.getD j 1).toNat ≤ cost.length) then
    Except.ok ((List.range cost.length).map (fun i =>
      (List.range num_gt).map (fun j =>
        if i ∈ pos_idx (col cost j) (ks.getD j 1).toNat then (1 : α) else 0)))
  else Except.error TorchError.topkOutOfRange

/-- Fold step keeping the first strictly-smallest value. -/
def argmin_step [LinearOrderedCommRing α] (acc q : Nat × α) : Nat × α :=
  if q.2 < acc.2 then q else acc

/-- Index of the first minimum of a list (torch.min(..., dim=1) returns the
first minimal index); 0 on the empty list, which no source path reaches. -/
def argmin_idx [LinearOrderedCommRing α] (xs : List α) : Nat :=
  match xs.enum with
  | [] => 0
  | p :: ps => (ps.foldl argmin_step p).1

/-- Fold step keeping the first strictly-largest value. -/
def argmax_step [LinearOrderedCommRing α] (acc q : Nat × α) : Nat × α :=
  if acc.2 < q.2 then q else acc

/-- Index of the first maximum of a list (Tensor.argmax(1); in the source it
is only applied to rows holding exactly one 1 among 0s, where every
tie-break agrees). -/
def argmax_idx [LinearOrderedCommRing α] (xs : List α) : Nat :=
  match xs.enum with
  | [] => 0
  | p :: ps => (ps.foldl argmax_step p).1

/-- Row of length n that is 1 at position k and 0 elsewhere. -/
def one_hot_row [LinearOrderedCommRing α] (n k : Nat) : List α :=
  (List.range n).map (fun j => if j = k then 1 else 0)

/-- Lines 202-207 of sim_ota_assigner.py, for one row: a row selected by
more than one ground truth (sum > 1) is zeroed and its minimum-cost column
set to 1; other rows pass through. -/
def resolve_row [LinearOrderedCommRing α] (mrow crow : List α) : List α :=
  if 1 < mrow.sum then one_hot_row mrow.length (argmin_idx crow) else mrow

/-- Lines 202-207 of sim_ota_assigner.py: prior_match_gt_mask =
matching_matrix.sum(1) > 1; those rows are zeroed and re-set at
cost.argmin(1). -/
def resolve_conflicts [LinearOrderedCommRing α] (matching cost : List (List α)) :
    List (List α) :=
  List.zipWith resolve_row matching cost

/-- Boolean-masked in-place assignment fg_mask[fg_mask.clone()] = values:
positions where the mask is true consume the next value in order (in every
source use the number of true positions equals values.length, so the
values-exhausted branch is never reached there). -/
def masked_assign : List Bool → List Bool → List Bool
  | [], _ => []
  | false :: ms, vs => false :: masked_assign ms vs
  | true :: ms, [] => true :: masked_assign ms []
  | true :: ms, v :: vs => v :: masked_assign ms vs

/-- Lines 208-219 of sim_ota_assigner.py: fg_mask_inboxes =
matching_matrix.sum(1) > 0; num_fg = its true count; the caller's fg_mask is
narrowed in place; matched_gt_inds = argmax over the foreground rows;
gt_matched_classes = gt_classes[matched_gt_inds]; pred_ious_this_matching =
(matching_matrix * pair_wise_ious).sum(1)[fg_mask_inboxes]. -/
def assemble_results [LinearOrderedCommRing α] (matching ious : List (List α))
    (gt_classes : List ℤ) (fg_mask : List Bool) :
    Nat × List ℤ × List α × List Nat × List Bool :=
  let fg_mask_inboxes := matching.map (fun row => decide (0 < row.sum))
  let num_fg := fg_mask_inboxes.count true
  let new_fg_mask := masked_assign fg_mask fg_mask_inboxes
  let matched_gt_inds := (maskRows fg_mask_inboxes matching).map argmax_idx
  let gt_matched_classes := matched_gt_inds.map (fun k => gt_classes.getD k 0)
  let pred_ious_this_matching := maskRows fg_mask_inboxes
    (List.zipWith (fun mrow iourow => (List.zipWith (fun a b => a * b) mrow iourow).sum)
      matching ious)
  (num_fg, gt_matched_classes, pred_ious_this_matching, matched_gt_inds, new_fg_mask)

/-- SimOTAAssigner.dynamic_k_matching.  Returns (num_fg,
gt_matched_classes, pred_ious_this_matching, matched_gt_inds) together with
the final state of fg_mask, which the Python code mutates in place. -/
def dynamic_k_matching [LinearOrderedCommRing α] [FloorRing α] (candidate_topk : Nat)
    (cost pair_wise_ious : List (List α)) (gt_classes : List ℤ) (num_gt : Nat)
    (fg_mask : List Bool) :
    Except TorchError (Nat × List ℤ × List α × List Nat × List Bool) :=
  match dynamic_ks candidate_topk pair_wise_ious num_gt with
  | .error e => .error e
  | .ok ks =>
    match select_matching cost ks num_gt with
    | .error e => .error e
    | .ok m0 =>
      .ok (assemble_results (resolve_conflicts m0 cost) pair_wise_ious gt_classes fg_mask)

theorem mem_insertSorted {le : β → β → Bool} {x a : β} {l : List β} :
    x ∈ insertSorted le a l ↔ x = a ∨ x ∈ l := by
  induction l with
  | nil => simp [insertSorted]
  | cons y ys ih =>
    simp only [insertSorted]
    cases hle : le a y
    · simp [hle, ih, List.mem_cons]
      tauto
    · simp [hle, List.mem_cons]

theorem mem_sortBy {le : β → β → Bool} {x : β} {l : List β} :
    x ∈ sortBy le l ↔ x ∈ l := by
  induction l with
  | nil => simp [sortBy]
  | cons y ys ih => simp [sortBy, mem_insertSorted, ih]

theorem length_insertSorted (le : β → β → Bool) (a : β) (l : List β) :
    (insertSorted le a l).length = l.length + 1 := by
  induction l with
  | nil => rfl
  | cons y ys ih =>
    simp only [insertSorted]
    cases hle : le a y <;> simp [ih]

theorem length_sortBy (le : β → β → Bool) (l : List β) :
    (sortBy le l).length = l.length := by
  induction l with
  | nil => rfl
  | cons y ys ih => simp [sortBy, length_insertSorted, ih]

theorem sum_le_cast_length [LinearOrderedCommRing α] (l : List α) (h : ∀ x ∈ l, x ≤ 1) :
    l.sum ≤ (l.length : α) := by
  induction l with
  | nil => simp
  | cons x xs ih =>
    simp only [List.sum_cons, List.length_cons]
    push_cast
    have h1 := ih (fun y hy => h y (List.mem_cons_of_mem _ hy))
    have hx := h x (List.mem_cons_self x xs)
    linarith

theorem sum_nonneg_of_nonneg [LinearOrderedCommRing α] (l : List α)
    (h : ∀ x ∈ l, 0 ≤ x) : 0 ≤ l.sum := by
  induction l with
  | nil => simp
  | cons x xs ih =>
    simp only [List.sum_cons]
    have h1 := ih (fun y hy => h y (List.mem_cons_of_mem _ hy))
    have hx := h x (List.mem_cons_self x xs)
    linarith

theorem col_bounds [LinearOrderedCommRing α] (ious : List (List α)) (j : Nat)
    (hb : ∀ row ∈ ious, ∀ x ∈ row, 0 ≤ x ∧ x ≤ 1) :
    ∀ x ∈ col ious j, 0 ≤ x ∧ x ≤ 1 := by
  intro x hx
  rcases List.mem_map.mp hx with ⟨row, hrow, rfl⟩
  by_cases hj : j < row.length
  · rw [List.getD_eq_getElem row 0 hj]
    exact hb row hrow _ (List.getElem_mem hj)
  · rw [List.getD_eq_default row 0 (Nat.le_of_not_lt hj)]
    exact ⟨le_refl 0, zero_le_one⟩

theorem topk_values_bounds [LinearOrderedCommRing α] (xs : List α) (k : Nat)
    (hb : ∀ x ∈ xs, 0 ≤ x ∧ x ≤ 1) :
    ∀ x ∈ topk_values xs k, 0 ≤ x ∧ x ≤ 1 := by
  intro x hx
  exact hb x (mem_sortBy.mp (List.take_subset _ _ hx))

/-- C3 counterexample: with one valid prior (Nv = 1) and the default
candidate_topk = 10, the code's dynamic-k computation raises (torch.topk
with k greater than the number of rows) instead of producing a k_j; the
min(candidate_topk, Nv) formula of the spec would give k = 1, which does lie
in [1, Nv]. -/
theorem dynamic_ks_small_nv_error :
    dynamic_ks 10 [[(1 : ℤ)]] 1 = Except.error TorchError.topkOutOfRange ∧
    spec_dynamic_k 10 [[(1 : ℤ)]] 0 = 1 ∧
    (1 : ℤ) ≤ 1 ∧ (1 : ℤ) ≤ ([[(1 : ℤ)]].length : ℤ) :=
  ⟨rfl, by decide, by decide, by decide⟩

/-- C3 amended: when candidate_topk ≤ Nv (and candidate_topk ≥ 1, its
default being 10), dynamic_ks succeeds and each k_j is the floor of the sum
of the candidate_topk (= min(candidate_topk, Nv)) largest IoU values of
column j clamped to a minimum of 1, and satisfies 1 ≤ k_j ≤ Nv for IoU
entries in [0,1]; when Nv < candidate_topk the computation instead raises a
top-k out-of-range error (see the counterexample). -/
theorem dynamic_ks_bounds [LinearOrderedCommRing α] [FloorRing α]
    (candidate_topk : Nat) (ious : List (List α)) (num_gt : Nat)
    (h1 : 1 ≤ candidate_topk) (h2 : candidate_topk ≤ ious.length)
    (hb : ∀ row ∈ ious, ∀ x ∈ row, 0 ≤ x ∧ x ≤ 1) :
    dynamic_ks candidate_topk ious num_gt =
      Except.ok ((List.range num_gt).map (fun j => spec_dynamic_k candidate_topk ious j)) ∧
    ∀ j < num_gt, 1 ≤ spec_dynamic_k candidate_topk ious j ∧
      spec_dynamic_k candidate_topk ious j ≤ (ious.length : ℤ) := by
  have hmin : min candidate_topk ious.length = candidate_topk := Nat.min_eq_left h2
  have hsum_nonneg : ∀ j : Nat,
      0 ≤ (topk_values (col ious j) candidate_topk).sum := by
    intro j
    exact sum_nonneg_of_nonneg _
      (fun x hx => (topk_values_bounds _ _ (col_bounds ious j hb) x hx).1)
  have hsum_le : ∀ j : Nat,
      (topk_values (col ious j) candidate_topk).sum ≤ (candidate_topk : α) := by
    intro j
    have hle := sum_le_cast_length (topk_values (col ious j) candidate_topk)
      (fun x hx => (topk_values_bounds _ _ (col_bounds ious j hb) x hx).2)
    refine le_trans hle ?_
    have hlen : (topk_values (col ious j) candidate_topk).length ≤ candidate_topk := by
      simp [topk_values, List.length_take]
    exact_mod_cast hlen
  constructor
  · unfold dynamic_ks
    rw [if_pos h2]
    refine congrArg Except.ok (List.map_congr_left ?_)
    intro j hj
    unfold spec_dynamic_k
    rw [hmin, truncInt, if_pos (hsum_nonneg j)]
  · intro j hj
    constructor
    · exact le_max_left 1 _
    · unfold spec_dynamic_k
      rw [hmin]
      have hfle : ⌊(topk_values (col ious j) candidate_topk).sum⌋ ≤ (candidate_topk : ℤ) := by
        have := Int.floor_le_floor (α := α) (hsum_le j)
        rwa [Int.floor_natCast] at this
      have h1z : (1 : ℤ) ≤ (candidate_topk : ℤ) := by exact_mod_cast h1
      have h2z : (candidate_topk : ℤ) ≤ (ious.length : ℤ) := by exact_mod_cast h2
      exact le_trans (max_le h1z hfle) h2z

/-- Witness for C3 amended at a concrete input with candidate_topk = 1 ≤
Nv = 2. -/
theorem dynamic_ks_bounds_witness :
    (1 ≤ 1 ∧ 1 ≤ [[(1 : ℤ)], [0]].length ∧
      ∀ row ∈ [[(1 : ℤ)], [0]], ∀ x ∈ row, 0 ≤ x ∧ x ≤ 1) ∧
    (dynamic_ks 1 [[(1 : ℤ)], [0]] 1 =
        Except.ok ((List.range 1).map (fun j => spec_dynamic_k 1 [[(1 : ℤ)], [0]] j)) ∧
      ∀ j < 1, 1 ≤ spec_dynamic_k 1 [[(1 : ℤ)], [0]] j ∧
        spec_dynamic_k 1 [[(1 : ℤ)], [0]] j ≤ ([[(1 : ℤ)], [0]].length : ℤ)) :=
  ⟨⟨by decide, by decide, by decide⟩,
    dynamic_ks_bounds 1 [[(1 : ℤ)], [0]] 1 (by decide) (by decide) (by decide)⟩

theorem mem_zipWith {γ δ ε : Type*} {f : γ → δ → ε} {x : ε} {l1 : List γ} {l2 : List δ}
    (hx : x ∈ List.zipWith f l1 l2) : ∃ p ∈ l1.zip l2, x = f p.1 p.2 := by
  induction l1 generalizing l2 with
  | nil => simp at hx
  | cons a as ih =>
    cases l2 with
    | nil => simp at hx
    | cons b bs =>
      rcases List.mem_cons.mp hx with rfl | hx
      · exact ⟨(a, b), List.mem_cons_self _ _, rfl⟩
      · rcases ih hx with ⟨p, hp, rfl⟩
        exact ⟨p, List.mem_cons_of_mem _ hp, rfl⟩

theorem getD_zipWith {γ δ ε : Type*} (f : γ → δ → ε) (l1 : List γ) (l2 : List δ)
    (i : Nat) (d : ε) (d1 : γ) (d2 : δ) (h1 : i < l1.length) (h2 : i < l2.length) :
    (List.zipWith f l1 l2).getD i d = f (l1.getD i d1) (l2.getD i d2) := by
  induction l1 generalizing l2 i with
  | nil => simp at h1
  | cons a as ih =>
    cases l2 with
    | nil => simp at h2
    | cons b bs =>
      cases i with
      | zero => simp
      | succ n =>
        simp only [List.zipWith_cons_cons, List.getD_cons_succ]
        exact ih bs n (Nat.lt_of_succ_lt_succ h1) (Nat.lt_of_succ_lt_succ h2)

theorem foldl_argmin_step_mem [LinearOrderedCommRing α] (p : Nat × α)
    (ps : List (Nat × α)) :
    ps.foldl argmin_step p = p ∨ ps.foldl argmin_step p ∈ ps := by
  induction ps generalizing p with
  | nil => exact Or.inl rfl
  | cons q qs ih =>
    simp only [List.foldl_cons]
    rcases ih (argmin_step p q) with h | h
    · rw [h]
      unfold argmin_step
      by_cases hq : q.2 < p.2
      · rw [if_pos hq]; exact Or.inr (List.mem_cons_self q qs)
      · rw [if_neg hq]; exact Or.inl rfl
    · exact Or.inr (List.mem_cons_of_mem q h)

theorem foldl_argmin_step_le [LinearOrderedCommRing α] (p : Nat × α)
    (ps : List (Nat × α)) :
    (ps.foldl argmin_step p).2 ≤ p.2 ∧ ∀ q ∈ ps, (ps.foldl argmin_step p).2 ≤ q.2 := by
  induction ps generalizing p with
  | nil => exact ⟨le_refl _, fun q hq => absurd hq (List.not_mem_nil q)⟩
  | cons q qs ih =>
    simp only [List.foldl_cons]
    rcases ih (argmin_step p q) with ⟨h1, h2⟩
    have hstep : (argmin_step p q).2 ≤ p.2 ∧ (argmin_step p q).2 ≤ q.2 := by
      unfold argmin_step
      by_cases hq : q.2 < p.2
      · rw [if_pos hq]; exact ⟨le_of_lt hq, le_refl _⟩
      · rw [if_neg hq]; exact ⟨le_refl _, not_lt.mp hq⟩
    refine ⟨le_trans h1 hstep.1, ?_⟩
    intro x hx
    rcases List.mem_cons.mp hx with rfl | hx
    · exact le_trans h1 hstep.2
    · exact h2 x hx

theorem foldl_argmax_step_mem [LinearOrderedCommRing α] (p : Nat × α)
    (ps : List (Nat × α)) :
    ps.foldl argmax_step p = p ∨ ps.foldl argmax_step p ∈ ps := by
  induction ps generalizing p with
  | nil => exact Or.inl rfl
  | cons q qs ih =>
    simp only [List.foldl_cons]
    rcases ih (argmax_step p q) with h | h
    · rw [h]
      unfold argmax_step
      by_cases hq : p.2 < q.2
      · rw [if_pos hq]; exact Or.inr (List.mem_cons_self q qs)
      · rw [if_neg hq]; exact Or.inl rfl
    · exact Or.inr (List.mem_cons_of_mem q h)

theorem foldl_argmax_step_ge [LinearOrderedCommRing α] (p : Nat × α)
    (ps : List (Nat × α)) :
    p.2 ≤ (ps.foldl argmax_step p).2 ∧ ∀ q ∈ ps, q.2 ≤ (ps.foldl argmax_step p).2 := by
  induction ps generalizing p with
  | nil => exact ⟨le_refl _, fun q hq => absurd hq (List.not_mem_nil q)⟩
  | cons q qs ih =>
    simp only [List.foldl_cons]
    rcases ih (argmax_step p q) with ⟨h1, h2⟩
    have hstep : p.2 ≤ (argmax_step p q).2 ∧ q.2 ≤ (argmax_step p q).2 := by
      unfold argmax_step
      by_cases hq : p.2 < q.2
      · rw [if_pos hq]; exact ⟨le_of_lt hq, le_refl _⟩
      · rw [if_neg hq]; exact ⟨le_refl _, not_lt.mp hq⟩
    refine ⟨le_trans hstep.1 h1, ?_⟩
    intro x hx
    rcases List.mem_cons.mp hx with rfl | hx
    · exact le_trans hstep.2 h1
    · exact h2 x hx

theorem mem_enum_getD {γ : Type*} [Zero γ] {r : Nat × γ} {xs : List γ}
    (hr : r ∈ xs.enum) : r.1 < xs.length ∧ xs.getD r.1 0 = r.2 := by
  have h := List.mem_enum_iff_getElem?.mp hr
  have hlt : r.1 < xs.length := (List.getElem?_eq_some.mp h).1
  refine ⟨hlt, ?_⟩
  rw [List.getD_eq_getElem _ _ hlt]
  rcases List.getElem?_eq_some.mp h with ⟨hh, hv⟩
  exact hv

theorem enum_mem_of_lt {γ : Type*} [Zero γ] (xs : List γ) (j : Nat) (hj : j < xs.length) :
    (j, xs.getD j 0) ∈ xs.enum := by
  rw [List.mem_enum_iff_getElem?]
  simp [List.getElem?_eq_getElem hj, List.getD_eq_getElem _ _ hj]

theorem argmin_idx_spec [LinearOrderedCommRing α] (xs : List α) (hne : xs ≠ []) :
    argmin_idx xs < xs.length ∧
    ∀ j < xs.length, xs.getD (argmin_idx xs) 0 ≤ xs.getD j 0 := by
  cases henum : xs.enum with
  | nil =>
    exfalso
    have hlen := congrArg List.length henum
    simp only [List.enum_length, List.length_nil] at hlen
    exact hne (List.length_eq_zero.mp hlen)
  | cons p ps =>
    have hidx : argmin_idx xs = (ps.foldl argmin_step p).1 := by
      unfold argmin_idx
      rw [henum]
    have hrmem : ps.foldl argmin_step p ∈ xs.enum := by
      rw [henum]
      rcases foldl_argmin_step_mem p ps with h | h
      · rw [h]; exact List.mem_cons_self p ps
      · exact List.mem_cons_of_mem p h
    obtain ⟨hlt, hval⟩ := mem_enum_getD hrmem
    rw [hidx]
    refine ⟨hlt, ?_⟩
    intro j hj
    have hjmem : (j, xs.getD j 0) ∈ xs.enum := enum_mem_of_lt xs j hj
    rw [henum] at hjmem
    have hle := foldl_argmin_step_le p ps
    rw [hval]
    rcases List.mem_cons.mp hjmem with heq | hmem
    · have h2 : p.2 = xs.getD j 0 := by rw [← heq]
      rw [← h2]
      exact hle.1
    · exact hle.2 _ hmem

theorem argmax_idx_spec [LinearOrderedCommRing α] (xs : List α) (hne : xs ≠ []) :
    argmax_idx xs < xs.length ∧
    ∀ j < xs.length, xs.getD j 0 ≤ xs.getD (argmax_idx xs) 0 := by
  cases henum : xs.enum with
  | nil =>
    exfalso
    have hlen := congrArg List.length henum
    simp only [List.enum_length, List.length_nil] at hlen
    exact hne (List.length_eq_zero.mp hlen)
  | cons p ps =>
    have hidx : argmax_idx xs = (ps.foldl argmax_step p).1 := by
      unfold argmax_idx
      rw [henum]
    have hrmem : ps.foldl argmax_step p ∈ xs.enum := by
      rw [henum]
      rcases foldl_argmax_step_mem p ps with h | h
      · rw [h]; exact List.mem_cons_self p ps
      · exact List.mem_cons_of_mem p h
    obtain ⟨hlt, hval⟩ := mem_enum_getD hrmem
    rw [hidx]
    refine ⟨hlt, ?_⟩
    intro j hj
    have hjmem : (j, xs.getD j 0) ∈ xs.enum := enum_mem_of_lt xs j hj
    rw [henum] at hjmem
    have hge := foldl_argmax_step_ge p ps
    rw [hval]
    rcases List.mem_cons.mp hjmem with heq | hmem
    · have h2 : p.2 = xs.getD j 0 := by rw [← heq]
      rw [← h2]
      exact hge.1
    · exact hge.2 _ hmem

theorem one_hot_row_entries [LinearOrderedCommRing α] (n k : Nat) :
    ∀ x ∈ (one_hot_row n k : List α), x = 0 ∨ x = 1 := by
  intro x hx
  rcases List.mem_map.mp hx with ⟨j, hj, rfl⟩
  by_cases h : j = k <;> simp [h]

theorem one_hot_row_sum [LinearOrderedCommRing α] (n k : Nat) :
    (one_hot_row n k : List α).sum = if k < n then 1 else 0 := by
  induction n with
  | zero => simp [one_hot_row]
  | succ n ih =>
    unfold one_hot_row at ih ⊢
    rw [List.range_succ, List.map_append, List.sum_append]
    simp only [List.map_cons, List.map_nil, List.sum_cons, List.sum_nil]
    rw [ih]
    by_cases h1 : k < n
    · rw [if_pos h1, if_pos (Nat.lt_succ_of_lt h1), if_neg (by omega)]
      ring
    · by_cases h2 : n = k
      · subst h2
        rw [if_neg h1, if_pos (Nat.lt_succ_self n), if_pos rfl]
        ring
      · rw [if_neg h1, if_neg h2, if_neg (show ¬k < n + 1 by omega)]
        ring

theorem sum01_eq_zero_or_one [LinearOrderedCommRing α] (l : List α)
    (h01 : ∀ x ∈ l, x = 0 ∨ x = 1) (hle : l.sum ≤ 1) : l.sum = 0 ∨ l.sum = 1 := by
  induction l with
  | nil => left; rfl
  | cons x xs ih =>
    have hx := h01 x (List.mem_cons_self x xs)
    have hxs01 : ∀ y ∈ xs, y = 0 ∨ y = 1 :=
      fun y hy => h01 y (List.mem_cons_of_mem _ hy)
    have hnn : 0 ≤ xs.sum := sum_nonneg_of_nonneg xs
      (fun y hy => by rcases hxs01 y hy with h | h <;> simp [h])
    simp only [List.sum_cons] at hle ⊢
    rcases hx with rfl | rfl
    · simp only [zero_add] at hle ⊢
      exact ih hxs01 hle
    · have hxs0 : xs.sum = 0 := le_antisymm (by linarith) hnn
      right
      rw [hxs0]
      ring

/-- C4: after conflict resolution, every row of the matching matrix sums to
0 or 1 (never more), for every cost matrix and every 0/1 matching (as
produced by the dynamic-k selection) whose rows match the cost rows'
lengths. -/
theorem resolved_row_sums [LinearOrderedCommRing α] (matching cost : List (List α))
    (h01 : ∀ row ∈ matching, ∀ x ∈ row, x = 0 ∨ x = 1)
    (hlen : ∀ p ∈ matching.zip cost, p.1.length = p.2.length) :
    ∀ row ∈ resolve_conflicts matching cost, row.sum = 0 ∨ row.sum = 1 := by
  intro row hrow
  rcases mem_zipWith hrow with ⟨p, hp, rfl⟩
  have h01p := h01 p.1 (List.of_mem_zip hp).1
  have hlenp := hlen p hp
  unfold resolve_row
  by_cases hgt : 1 < p.1.sum
  · rw [if_pos hgt]
    have hne : p.2 ≠ [] := by
      intro hnil
      rw [hnil, List.length_nil] at hlenp
      have hp1 : p.1 = [] := List.length_eq_zero.mp hlenp
      rw [hp1, List.sum_nil] at hgt
      exact absurd hgt (by norm_num)
    obtain ⟨hargmin, _⟩ := argmin_idx_spec p.2 hne
    right
    rw [one_hot_row_sum, if_pos (by rw [hlenp]; exact hargmin)]
  · rw [if_neg hgt]
    exact sum01_eq_zero_or_one p.1 h01p (not_lt.mp hgt)

/-- Witness for C4 at a concrete input in which the first row is selected by
both ground truths. -/
theorem resolved_row_sums_witness :
    ((∀ row ∈ [[(1 : ℤ), 1], [0, 1]], ∀ x ∈ row, x = 0 ∨ x = 1) ∧
      ∀ p ∈ ([[(1 : ℤ), 1], [0, 1]]).zip [[(5 : ℤ), 2], [1, 9]], p.1.length = p.2.length) ∧
    ∀ row ∈ resolve_conflicts [[(1 : ℤ), 1], [0, 1]] [[(5 : ℤ), 2], [1, 9]],
      row.sum = 0 ∨ row.sum = 1 :=
  ⟨⟨by decide, by decide⟩,
    resolved_row_sums [[(1 : ℤ), 1], [0, 1]] [[(5 : ℤ), 2], [1, 9]] (by decide) (by decide)⟩

/-- C5: conflict resolution changes only rows whose sum exceeds 1: such a
row becomes exactly the one-hot row at the first minimum-cost column of the
corresponding cost row, a column whose cost is minimal over all columns;
every row whose sum is at most 1 passes through unchanged. -/
theorem resolve_frame_effect [LinearOrderedCommRing α] (matching cost : List (List α))
    (i : Nat) (hi : i < matching.length) (hl : matching.length = cost.length)
    (hrow : (matching.getD i []).length = (cost.getD i []).length) :
    ((matching.getD i []).sum ≤ 1 →
      (resolve_conflicts matching cost).getD i [] = matching.getD i []) ∧
    (1 < (matching.getD i []).sum →
      (resolve_conflicts matching cost).getD i [] =
        one_hot_row (matching.getD i []).length (argmin_idx (cost.getD i [])) ∧
      argmin_idx (cost.getD i []) < (cost.getD i []).length ∧
      ∀ j < (cost.getD i []).length,
        (cost.getD i []).getD (argmin_idx (cost.getD i [])) 0 ≤ (cost.getD i []).getD j 0) := by
  have hic : i < cost.length := hl ▸ hi
  have hres : (resolve_conflicts matching cost).getD i [] =
      resolve_row (matching.getD i []) (cost.getD i []) := by
    unfold resolve_conflicts
    exact getD_zipWith resolve_row matching cost i [] [] [] hi hic
  constructor
  · intro hle
    rw [hres]
    unfold resolve_row
    rw [if_neg (not_lt.mpr hle)]
  · intro hgt
    have hne : cost.getD i [] ≠ [] := by
      intro hnil
      rw [hnil, List.length_nil] at hrow
      have hm : matching.getD i [] = [] := List.length_eq_zero.mp hrow
      rw [hm, List.sum_nil] at hgt
      exact absurd hgt (by norm_num)
    obtain ⟨ha1, ha2⟩ := argmin_idx_spec (cost.getD i []) hne
    refine ⟨?_, ha1, ha2⟩
    rw [hres]
    unfold resolve_row
    rw [if_pos hgt]

/-- Witness for C5 at a concrete conflicted row. -/
theorem resolve_frame_effect_witness :
    ((0 : Nat) < [[(1 : ℤ), 1]].length ∧
      [[(1 : ℤ), 1]].length = [[(3 : ℤ), 2]].length ∧
      (([[(1 : ℤ), 1]]).getD 0 []).length = (([[(3 : ℤ), 2]]).getD 0 []).length) ∧
    (((([[(1 : ℤ), 1]]).getD 0 []).sum ≤ 1 →
      (resolve_conflicts [[(1 : ℤ), 1]] [[(3 : ℤ), 2]]).getD 0 [] = ([[(1 : ℤ), 1]]).getD 0 []) ∧
    (1 < (([[(1 : ℤ), 1]]).getD 0 []).sum →
      (resolve_conflicts [[(1 : ℤ), 1]] [[(3 : ℤ), 2]]).getD 0 [] =
        one_hot_row (([[(1 : ℤ), 1]]).getD 0 []).length
          (argmin_idx (([[(3 : ℤ), 2]]).getD 0 [])) ∧
      argmin_idx (([[(3 : ℤ), 2]]).getD 0 []) < (([[(3 : ℤ), 2]]).getD 0 []).length ∧
      ∀ j < (([[(3 : ℤ), 2]]).getD 0 []).length,
        (([[(3 : ℤ), 2]]).getD 0 []).getD (argmin_idx (([[(3 : ℤ), 2]]).getD 0 [])) 0 ≤
          (([[(3 : ℤ), 2]]).getD 0 []).getD j 0)) :=
  ⟨⟨by decide, by decide, by decide⟩,
    resolve_frame_effect [[(1 : ℤ), 1]] [[(3 : ℤ), 2]] 0 (by decide) (by decide) (by decide)⟩

theorem maskRows_cons_true {γ : Type*} (ms : List Bool) (r : γ) (rs : List γ) :
    maskRows (true :: ms) (r :: rs) = r :: maskRows ms rs := by
  simp [maskRows]

theorem maskRows_cons_false {γ : Type*} (ms : List Bool) (r : γ) (rs : List γ) :
    maskRows (false :: ms) (r :: rs) = maskRows ms rs := by
  simp [maskRows]

theorem maskRows_map_self {γ : Type*} (f : γ → Bool) (l : List γ) :
    maskRows (l.map f) l = l.filter f := by
  induction l with
  | nil => rfl
  | cons x xs ih =>
    rw [List.map_cons, List.filter_cons]
    cases hfx : f x
    · rw [maskRows_cons_false, ih]
      simp
    · rw [maskRows_cons_true, ih]
      simp

theorem mem_maskRows {γ : Type*} {x : γ} {mask : List Bool} {rows : List γ}
    (hx : x ∈ maskRows mask rows) : x ∈ rows := by
  unfold maskRows at hx
  rcases List.mem_map.mp hx with ⟨p, hp, rfl⟩
  exact (List.of_mem_zip (List.mem_of_mem_filter hp)).1

theorem maskRows_length {γ : Type*} (mask : List Bool) (rows : List γ)
    (h : mask.length = rows.length) :
    (maskRows mask rows).length = mask.count true := by
  induction mask generalizing rows with
  | nil => simp [maskRows]
  | cons m ms ih =>
    cases rows with
    | nil => simp at h
    | cons r rs =>
      have hlen : ms.length = rs.length := by simpa using h
      cases m
      · rw [maskRows_cons_false, ih rs hlen]
        simp [List.count_cons]
      · rw [maskRows_cons_true]
        simp [List.count_cons, ih rs hlen]

theorem getD_map_of_lt {γ δ : Type*} (f : γ → δ) (l : List γ) (i : Nat) (d : δ) (d2 : γ)
    (h : i < l.length) : (l.map f).getD i d = f (l.getD i d2) := by
  rw [List.getD_eq_getElem _ _ (by simpa using h), List.getElem_map,
    List.getD_eq_getElem _ _ h]

theorem masked_assign_getD (mask vals : List Bool) (hc : mask.count true ≤ vals.length)
    (p : Nat) :
    (masked_assign mask vals).getD p false =
      (mask.getD p false && vals.getD ((mask.take p).count true) false) := by
  induction mask generalizing vals p with
  | nil => simp [masked_assign]
  | cons m ms ih =>
    cases m
    · cases p with
      | zero => simp [masked_assign]
      | succ n =>
        have hc2 : ms.count true ≤ vals.length := by simpa [List.count_cons] using hc
        simp only [masked_assign, List.getD_cons_succ, List.take_succ_cons, List.count_cons]
        simpa using ih vals hc2 n
    · cases vals with
      | nil =>
        exfalso
        simp [List.count_cons] at hc
      | cons v vs =>
        cases p with
        | zero => simp [masked_assign]
        | succ n =>
          have hc2 : ms.count true ≤ vs.length := by
            simp [List.count_cons] at hc
            omega
          simp only [masked_assign, List.getD_cons_succ, List.take_succ_cons, List.count_cons]
          simpa using ih vs hc2 n

theorem masked_assign_count (mask vals : List Bool) (h : mask.count true = vals.length) :
    (masked_assign mask vals).count true = vals.count true := by
  induction mask generalizing vals with
  | nil =>
    have hv : vals = [] := List.length_eq_zero.mp (by simpa using h.symm)
    simp [masked_assign, hv]
  | cons m ms ih =>
    cases m
    · have h2 : ms.count true = vals.length := by simpa [List.count_cons] using h
      simp only [masked_assign, List.count_cons]
      simp [ih vals h2]
    · cases vals with
      | nil =>
        exfalso
        simp [List.count_cons] at h
      | cons v vs =>
        have h2 : ms.count true = vs.length := by
          simp [List.count_cons] at h
          omega
        simp only [masked_assign, List.count_cons]
        rw [ih vs h2]

theorem masked_assign_le (mask vals : List Bool) (p : Nat)
    (h : (masked_assign mask vals).getD p false = true) : mask.getD p false = true := by
  induction mask generalizing vals p with
  | nil => simp [masked_assign] at h
  | cons m ms ih =>
    cases m
    · cases p with
      | zero => simp [masked_assign] at h
      | succ n =>
        simp only [masked_assign, List.getD_cons_succ] at h ⊢
        exact ih vals n h
    · cases vals with
      | nil =>
        cases p with
        | zero => rfl
        | succ n =>
          simp only [masked_assign, List.getD_cons_succ] at h ⊢
          exact ih [] n h
      | cons v vs =>
        cases p with
        | zero => rfl
        | succ n =>
          simp only [masked_assign, List.getD_cons_succ] at h ⊢
          exact ih vs n h

theorem count_take_lt (l : List Bool) (p : Nat) (hp : p < l.length)
    (ht : l.getD p false = true) : (l.take p).count true < l.count true := by
  induction l generalizing p with
  | nil => simp at hp
  | cons b bs ih =>
    cases p with
    | zero =>
      have hb : b = true := ht
      simp [hb, List.count_cons]
    | succ n =>
      have hp2 : n < bs.length := Nat.lt_of_succ_lt_succ hp
      have ht2 : bs.getD n false = true := by simpa using ht
      have hlt := ih n hp2 ht2
      simp only [List.take_succ_cons, List.count_cons]
      cases b <;> simp <;> omega

theorem sum01_zero_all_zero [LinearOrderedCommRing α] (l : List α)
    (h01 : ∀ x ∈ l, x = 0 ∨ x = 1) (hs : l.sum = 0) :
    ∀ j < l.length, l.getD j 0 = 0 := by
  induction l with
  | nil => intro j hj; simp at hj
  | cons x xs ih =>
    have hx := h01 x (List.mem_cons_self x xs)
    have hxs01 : ∀ y ∈ xs, y = 0 ∨ y = 1 :=
      fun y hy => h01 y (List.mem_cons_of_mem _ hy)
    have hnn : 0 ≤ xs.sum := sum_nonneg_of_nonneg xs
      (fun y hy => by rcases hxs01 y hy with h | h <;> simp [h])
    simp only [List.sum_cons] at hs
    rcases hx with rfl | rfl
    · rw [zero_add] at hs
      intro j hj
      cases j with
      | zero => rfl
      | succ n =>
        have := ih hxs01 hs n (Nat.lt_of_succ_lt_succ hj)
        simpa using this
    · exfalso
      linarith

theorem sum01_one_exists [LinearOrderedCommRing α] (l : List α)
    (h01 : ∀ x ∈ l, x = 0 ∨ x = 1) (hs : l.sum = 1) :
    ∃ k, k < l.length ∧ l.getD k 0 = 1 ∧ ∀ j < l.length, j ≠ k → l.getD j 0 = 0 := by
  induction l with
  | nil =>
    exfalso
    simp only [List.sum_nil] at hs
    exact absurd hs.symm one_ne_zero
  | cons x xs ih =>
    have hx := h01 x (List.mem_cons_self x xs)
    have hxs01 : ∀ y ∈ xs, y = 0 ∨ y = 1 :=
      fun y hy => h01 y (List.mem_cons_of_mem _ hy)
    have hnn : 0 ≤ xs.sum := sum_nonneg_of_nonneg xs
      (fun y hy => by rcases hxs01 y hy with h | h <;> simp [h])
    simp only [List.sum_cons] at hs
    rcases hx with rfl | rfl
    · rw [zero_add] at hs
      obtain ⟨k, hk, hk1, hk0⟩ := ih hxs01 hs
      refine ⟨k + 1, by simpa using Nat.succ_lt_succ hk, by simpa using hk1, ?_⟩
      intro j hj hjk
      cases j with
      | zero => rfl
      | succ n =>
        have := hk0 n (Nat.lt_of_succ_lt_succ hj) (fun hh => hjk (by rw [hh]))
        simpa using this
    · have hxs0 : xs.sum = 0 := by linarith
      refine ⟨0, Nat.succ_pos _, rfl, ?_⟩
      intro j hj hj0
      cases j with
      | zero => exact absurd rfl hj0
      | succ n =>
        have := sum01_zero_all_zero xs hxs01 hxs0 n (Nat.lt_of_succ_lt_succ hj)
        simpa using this

theorem row_argmax_unique_one [LinearOrderedCommRing α] (row : List α)
    (h01 : ∀ x ∈ row, x = 0 ∨ x = 1) (hs : row.sum = 1) :
    row.getD (argmax_idx row) 0 = 1 ∧
    ∀ j < row.length, j ≠ argmax_idx row → row.getD j 0 = 0 := by
  obtain ⟨k, hk, hk1, hk0⟩ := sum01_one_exists row h01 hs
  have hne : row ≠ [] := by
    intro hrow
    rw [hrow] at hk
    simp at hk
  obtain ⟨ham, hmax⟩ := argmax_idx_spec row hne
  have h1le : (1 : α) ≤ row.getD (argmax_idx row) 0 := hk1 ▸ hmax k hk
  have hmem : row.getD (argmax_idx row) 0 ∈ row := by
    rw [List.getD_eq_getElem _ _ ham]
    exact List.getElem_mem ham
  have hval : row.getD (argmax_idx row) 0 = 1 := by
    rcases h01 _ hmem with h | h
    · rw [h] at h1le
      exfalso
      linarith
    · exact h
  have hak : argmax_idx row = k := by
    by_contra hne2
    have h0 := hk0 (argmax_idx row) ham hne2
    rw [h0] at hval
    exact absurd hval (by norm_num)
  refine ⟨hval, ?_⟩
  intro j hj hjne
  exact hk0 j hj (hak ▸ hjne)

theorem select_matching_entries [LinearOrderedCommRing α] {cost : List (List α)}
    {ks : List ℤ} {num_gt : Nat} {m0 : List (List α)}
    (h : select_matching cost ks num_gt = Except.ok m0) :
    (∀ row ∈ m0, ∀ x ∈ row, x = 0 ∨ x = 1) ∧ m0.length = cost.length ∧
    ∀ row ∈ m0, row.length = num_gt := by
  unfold select_matching at h
  by_cases hall : ((List.range num_gt).all
      (fun j => decide ((ks.getD j 1).toNat ≤ cost.length))) = true
  · rw [if_pos hall] at h
    injection h with h
    subst h
    refine ⟨?_, by simp, ?_⟩
    · intro row hrow x hx
      rcases List.mem_map.mp hrow with ⟨i, hi, rfl⟩
      rcases List.mem_map.mp hx with ⟨j, hj, rfl⟩
      by_cases hmem : i ∈ pos_idx (col cost j) (ks.getD j 1).toNat
      · rw [if_pos hmem]
        right
        rfl
      · rw [if_neg hmem]
        left
        rfl
    · intro row hrow
      rcases List.mem_map.mp hrow with ⟨i, hi, rfl⟩
      simp
  · rw [if_neg hall] at h
    exact absurd h (by simp)

theorem resolve_conflicts_rows [LinearOrderedCommRing α] (m0 cost : List (List α))
    (h01 : ∀ row ∈ m0, ∀ x ∈ row, x = 0 ∨ x = 1) :
    ∀ row ∈ resolve_conflicts m0 cost, (∀ x ∈ row, x = 0 ∨ x = 1) ∧ row.sum ≤ 1 := by
  intro row hrow
  rcases mem_zipWith hrow with ⟨p, hp, rfl⟩
  have h01p := h01 p.1 (List.of_mem_zip hp).1
  unfold resolve_row
  by_cases hgt : 1 < p.1.sum
  · rw [if_pos hgt]
    refine ⟨one_hot_row_entries _ _, ?_⟩
    rw [one_hot_row_sum]
    split <;> norm_num
  · rw [if_neg hgt]
    exact ⟨h01p, not_lt.mp hgt⟩

theorem zipWith_mul_sum_bound [LinearOrderedCommRing α] (mrow iourow : List α)
    (h01 : ∀ x ∈ mrow, x = 0 ∨ x = 1)
    (hiou : ∀ y ∈ iourow, 0 ≤ y ∧ y ≤ 1) :
    0 ≤ (List.zipWith (fun a b => a * b) mrow iourow).sum ∧
    (List.zipWith (fun a b => a * b) mrow iourow).sum ≤ mrow.sum := by
  induction mrow generalizing iourow with
  | nil => simp
  | cons m ms ih =>
    cases iourow with
    | nil =>
      simp only [List.zipWith_nil_right, List.sum_nil]
      refine ⟨le_refl 0, ?_⟩
      exact sum_nonneg_of_nonneg _
        (fun x hx => by rcases h01 x hx with h | h <;> simp [h])
    | cons i is =>
      have h01m := h01 m (List.mem_cons_self m ms)
      have h01ms : ∀ x ∈ ms, x = 0 ∨ x = 1 :=
        fun x hx => h01 x (List.mem_cons_of_mem _ hx)
      have hi := hiou i (List.mem_cons_self i is)
      have his : ∀ y ∈ is, 0 ≤ y ∧ y ≤ 1 :=
        fun y hy => hiou y (List.mem_cons_of_mem _ hy)
      obtain ⟨ih1, ih2⟩ := ih is h01ms his
      simp only [List.zipWith_cons_cons, List.sum_cons]
      rcases h01m with rfl | rfl
      · simp only [zero_mul, zero_add]
        exact ⟨ih1, by linarith⟩
      · simp only [one_mul]
        exact ⟨by linarith [hi.1], by linarith [hi.2]⟩

theorem count_true_map {γ : Type*} (f : γ → Bool) (l : List γ) :
    (l.map f).count true = (l.filter f).length := by
  induction l with
  | nil => rfl
  | cons x xs ih =>
    simp only [List.map_cons, List.count_cons, List.filter_cons]
    cases hfx : f x <;> simp [ih]

/-- C8: the result assembler returns num_foreground equal to the number of
rows of the resolved matching with positive sum; matched_gt_index lists, for
each foreground row in order, the (unique) column holding that row's 1;
matched_classes is gt_labels at those indices; and the updated N-length
validity mask is true exactly at the original positions of the foreground
rows (valid-but-non-foreground positions become false). -/
theorem assemble_results_spec [LinearOrderedCommRing α] (matching ious : List (List α))
    (gt_classes : List ℤ) (fg_mask : List Bool)
    (h01 : ∀ row ∈ matching, ∀ x ∈ row, x = 0 ∨ x = 1)
    (hle1 : ∀ row ∈ matching, row.sum ≤ 1)
    (hcnt : fg_mask.count true = matching.length) :
    (assemble_results matching ious gt_classes fg_mask).1 =
        (matching.filter (fun row => decide (0 < row.sum))).length ∧
    (assemble_results matching ious gt_classes fg_mask).2.2.2.1 =
        (matching.filter (fun row => decide (0 < row.sum))).map argmax_idx ∧
    (∀ row ∈ matching.filter (fun row => decide (0 < row.sum)),
        row.getD (argmax_idx row) 0 = 1 ∧
        ∀ j < row.length, j ≠ argmax_idx row → row.getD j 0 = 0) ∧
    (assemble_results matching ious gt_classes fg_mask).2.1 =
        (matching.filter (fun row => decide (0 < row.sum))).map
          (fun row => gt_classes.getD (argmax_idx row) 0) ∧
    ∀ p < fg_mask.length,
      ((assemble_results matching ious gt_classes fg_mask).2.2.2.2.getD p false = true ↔
        (fg_mask.getD p false = true ∧
          0 < (matching.getD ((fg_mask.take p).count true) []).sum)) := by
  have hfilter : ∀ row ∈ matching.filter (fun row => decide (0 < row.sum)),
      row.getD (argmax_idx row) 0 = 1 ∧
      ∀ j < row.length, j ≠ argmax_idx row → row.getD j 0 = 0 := by
    intro row hrow
    obtain ⟨hmem, hpos⟩ := List.mem_filter.mp hrow
    have hpos2 : 0 < row.sum := of_decide_eq_true hpos
    have hsum : row.sum = 1 := by
      rcases sum01_eq_zero_or_one row (h01 row hmem) (hle1 row hmem) with h | h
      · exfalso
        rw [h] at hpos2
        exact lt_irrefl 0 hpos2
      · exact h
    exact row_argmax_unique_one row (h01 row hmem) hsum
  refine ⟨?_, ?_, hfilter, ?_, ?_⟩
  · show (matching.map (fun row => decide (0 < row.sum))).count true = _
    exact count_true_map _ _
  · show (maskRows (matching.map (fun row => decide (0 < row.sum))) matching).map argmax_idx
        = _
    rw [maskRows_map_self]
  · show ((maskRows (matching.map (fun row => decide (0 < row.sum))) matching).map
        argmax_idx).map (fun k => gt_classes.getD k 0) = _
    rw [maskRows_map_self, List.map_map]
    rfl
  · intro p hp
    show (masked_assign fg_mask (matching.map (fun row => decide (0 < row.sum)))).getD p
        false = true ↔ _
    have hclen : fg_mask.count true ≤
        (matching.map (fun row => decide (0 < row.sum))).length := by
      rw [List.length_map]
      exact le_of_eq hcnt
    rw [masked_assign_getD fg_mask _ hclen p]
    cases hfg : fg_mask.getD p false
    · simp [hfg]
    · have hrank : (fg_mask.take p).count true < matching.length := by
        rw [← hcnt]
        exact count_take_lt fg_mask p hp hfg
      rw [getD_map_of_lt (fun row => decide (0 < row.sum)) matching
        ((fg_mask.take p).count true) false [] hrank]
      simp [Bool.and_eq_true]

/-- Witness for C8 at a concrete one-row matching. -/
theorem assemble_results_spec_witness :
    ((∀ row ∈ [[(1 : ℤ)]], ∀ x ∈ row, x = 0 ∨ x = 1) ∧
      (∀ row ∈ [[(1 : ℤ)]], row.sum ≤ 1) ∧
      ([true] : List Bool).count true = [[(1 : ℤ)]].length) ∧
    ((assemble_results [[(1 : ℤ)]] [[(1 : ℤ)]] [5] [true]).1 =
        (([[(1 : ℤ)]]).filter (fun row => decide (0 < row.sum))).length ∧
      (assemble_results [[(1 : ℤ)]] [[(1 : ℤ)]] [5] [true]).2.2.2.1 =
        (([[(1 : ℤ)]]).filter (fun row => decide (0 < row.sum))).map argmax_idx ∧
      (∀ row ∈ ([[(1 : ℤ)]]).filter (fun row => decide (0 < row.sum)),
        row.getD (argmax_idx row) 0 = 1 ∧
        ∀ j < row.length, j ≠ argmax_idx row → row.getD j 0 = 0) ∧
      (assemble_results [[(1 : ℤ)]] [[(1 : ℤ)]] [5] [true]).2.1 =
        (([[(1 : ℤ)]]).filter (fun row => decide (0 < row.sum))).map
          (fun row => ([5] : List ℤ).getD (argmax_idx row) 0) ∧
      ∀ p < ([true] : List Bool).length,
        ((assemble_results [[(1 : ℤ)]] [[(1 : ℤ)]] [5] [true]).2.2.2.2.getD p false = true ↔
          (([true] : List Bool).getD p false = true ∧
            0 < (([[(1 : ℤ)]]).getD ((([true] : List Bool).take p).count true) []).sum))) :=
  ⟨⟨by decide, by decide, by decide⟩,
    assemble_results_spec [[(1 : ℤ)]] [[(1 : ℤ)]] [5] [true]
      (by decide) (by decide) (by decide)⟩

/-- C9: for every input whose pairwise IoU entries lie in [0,1], every entry
of the matched-IoUs list returned by a successful dynamic_k_matching run
lies in [0,1]. -/
theorem matched_ious_in_unit_interval [LinearOrderedCommRing α] [FloorRing α]
    (candidate_topk : Nat) (cost ious : List (List α)) (gt_classes : List ℤ)
    (num_gt : Nat) (fg_mask : List Bool)
    (res : Nat × List ℤ × List α × List Nat × List Bool)
    (hiou : ∀ row ∈ ious, ∀ x ∈ row, 0 ≤ x ∧ x ≤ 1)
    (hok : dynamic_k_matching candidate_topk cost ious gt_classes num_gt fg_mask =
      Except.ok res) :
    ∀ x ∈ res.2.2.1, 0 ≤ x ∧ x ≤ 1 := by
  unfold dynamic_k_matching at hok
  cases hks : dynamic_ks candidate_topk ious num_gt with
  | error e =>
    rw [hks] at hok
    exact absurd hok (by simp)
  | ok ks =>
    rw [hks] at hok
    have hok2 : (match select_matching cost ks num_gt with
        | Except.error e => Except.error e
        | Except.ok m0 =>
          Except.ok (assemble_results (resolve_conflicts m0 cost) ious gt_classes fg_mask))
        = Except.ok res := hok
    cases hsel : select_matching cost ks num_gt with
    | error e =>
      rw [hsel] at hok2
      exact absurd hok2 (by simp)
    | ok m0 =>
      rw [hsel] at hok2
      have hok3 : Except.ok (assemble_results (resolve_conflicts m0 cost) ious gt_classes
        fg_mask) = Except.ok res := hok2
      injection hok3 with hok3
      subst hok3
      intro x hx
      have hx2 : x ∈ List.zipWith
          (fun mrow iourow => (List.zipWith (fun a b => a * b) mrow iourow).sum)
          (resolve_conflicts m0 cost) ious := mem_maskRows hx
      rcases mem_zipWith hx2 with ⟨p, hp, rfl⟩
      have hm := resolve_conflicts_rows m0 cost (select_matching_entries hsel).1
        p.1 (List.of_mem_zip hp).1
      have hio := hiou p.2 (List.of_mem_zip hp).2
      obtain ⟨hb1, hb2⟩ := zipWith_mul_sum_bound p.1 p.2 hm.1 hio
      exact ⟨hb1, le_trans hb2 hm.2⟩

/-- Witness for C9 at a concrete successful run. -/
theorem matched_ious_in_unit_interval_witness :
    (∀ row ∈ [[(1 : ℤ)], [0]], ∀ x ∈ row, 0 ≤ x ∧ x ≤ 1) ∧
    ∀ x ∈ ((1, [3], ([1] : List ℤ), [0], [true, false]) :
        Nat × List ℤ × List ℤ × List Nat × List Bool).2.2.1, 0 ≤ x ∧ x ≤ 1 :=
  ⟨by decide,
    matched_ious_in_unit_interval 1 [[(1 : ℤ)], [2]] [[(1 : ℤ)], [0]] [3] 1 [true, true]
      (1, [3], [1], [0], [true, false]) (by decide) rfl⟩

/-- C10: on every successful run, matched_classes, matched_ious and
matched_gt_index all have length num_foreground, and the returned mask has
exactly num_foreground true entries, each at a position that was true in the
incoming validity mask. -/
theorem result_shapes [LinearOrderedCommRing α] [FloorRing α]
    (candidate_topk : Nat) (cost ious : List (List α)) (gt_classes : List ℤ)
    (num_gt : Nat) (fg_mask : List Bool)
    (res : Nat × List ℤ × List α × List Nat × List Bool)
    (hcnt : fg_mask.count true = cost.length)
    (hlen : ious.length = cost.length)
    (hok : dynamic_k_matching candidate_topk cost ious gt_classes num_gt fg_mask =
      Except.ok res) :
    res.2.1.length = res.1 ∧ res.2.2.1.length = res.1 ∧ res.2.2.2.1.length = res.1 ∧
    res.2.2.2.2.count true = res.1 ∧
    ∀ p, res.2.2.2.2.getD p false = true → fg_mask.getD p false = true := by
  unfold dynamic_k_matching at hok
  cases hks : dynamic_ks candidate_topk ious num_gt with
  | error e =>
    rw [hks] at hok
    exact absurd hok (by simp)
  | ok ks =>
    rw [hks] at hok
    have hok2 : (match select_matching cost ks num_gt with
        | Except.error e => Except.error e
        | Except.ok m0 =>
          Except.ok (assemble_results (resolve_conflicts m0 cost) ious gt_classes fg_mask))
        = Except.ok res := hok
    cases hsel : select_matching cost ks num_gt with
    | error e =>
      rw [hsel] at hok2
      exact absurd hok2 (by simp)
    | ok m0 =>
      rw [hsel] at hok2
      have hok3 : Except.ok (assemble_results (resolve_conflicts m0 cost) ious gt_classes
        fg_mask) = Except.ok res := hok2
      injection hok3 with hok3
      subst hok3
      have hm0len : m0.length = cost.length := (select_matching_entries hsel).2.1
      have hmlen : (resolve_conflicts m0 cost).length = cost.length := by
        simp [resolve_conflicts, hm0len]
      have hinlen : ((resolve_conflicts m0 cost).map
          (fun row => decide (0 < row.sum))).length = cost.length := by
        simp [hmlen]
      have hprodlen : (List.zipWith
          (fun mrow iourow => (List.zipWith (fun a b => a * b) mrow iourow).sum)
          (resolve_conflicts m0 cost) ious).length = cost.length := by
        simp [hmlen, hlen]
      refine ⟨?_, ?_, ?_, ?_, ?_⟩
      · show (((maskRows _ (resolve_conflicts m0 cost)).map argmax_idx).map
            (fun k => gt_classes.getD k 0)).length = _
        rw [List.length_map, List.length_map,
          maskRows_length _ _ (by rw [hinlen, hmlen])]
        rfl
      · show (maskRows _ (List.zipWith _ (resolve_conflicts m0 cost) ious)).length = _
        rw [maskRows_length _ _ (by rw [hinlen, hprodlen])]
        rfl
      · show ((maskRows _ (resolve_conflicts m0 cost)).map argmax_idx).length = _
        rw [List.length_map, maskRows_length _ _ (by rw [hinlen, hmlen])]
        rfl
      · show (masked_assign fg_mask _).count true = _
        rw [masked_assign_count fg_mask _ (by rw [hinlen, hcnt])]
        rfl
      · intro p hp
        exact masked_assign_le fg_mask _ p hp

/-- Witness for C10 at a concrete successful run. -/
theorem result_shapes_witness :
    (([true, true] : List Bool).count true = [[(1 : ℤ)], [0]].length ∧
      [[(0 : ℤ)], [1]].length = [[(1 : ℤ)], [0]].length) ∧
    (((1, [2], ([1] : List ℤ), [0], [false, true]) :
        Nat × List ℤ × List ℤ × List Nat × List Bool).2.1.length = 1 ∧
      ((1, [2], ([1] : List ℤ), [0], [false, true]) :
        Nat × List ℤ × List ℤ × List Nat × List Bool).2.2.1.length = 1 ∧
      ((1, [2], ([1] : List ℤ), [0], [false, true]) :
        Nat × List ℤ × List ℤ × List Nat × List Bool).2.2.2.1.length = 1 ∧
      ((1, [2], ([1] : List ℤ), [0], [false, true]) :
        Nat × List ℤ × List ℤ × List Nat × List Bool).2.2.2.2.count true = 1 ∧
      ∀ p, (([false, true] : List Bool)).getD p false = true →
        (([true, true] : List Bool)).getD p false = true) :=
  ⟨⟨by decide, by decide⟩,
    result_shapes 1 [[(1 : ℤ)], [0]] [[(0 : ℤ)], [1]] [2] 1 [true, true]
      (1, [2], [1], [0], [false, true]) (by decide) (by decide) rfl⟩

theorem maskRows_false {γ : Type*} (mask : List Bool) (rows : List γ)
    (h : ∀ b ∈ mask, b = false) : maskRows mask rows = [] := by
  induction mask generalizing rows with
  | nil => simp [maskRows]
  | cons m ms ih =>
    cases rows with
    | nil => simp [maskRows]
    | cons r rs =>
      have hm : m = false := h m (List.mem_cons_self m ms)
      subst hm
      rw [maskRows_cons_false]
      exact ih rs (fun b hb => h b (List.mem_cons_of_mem _ hb))

/-- INF constant of _assign (line 109 of sim_ota_assigner.py). -/
def simOTA_INF : ℝ := 100000000

/-- One entry of iou_cost = -torch.log(pair_wise_ious + eps) (line 123). -/
noncomputable def iou_cost_entry (iou eps : ℝ) : ℝ := -Real.log (iou + eps)

/-- One entry of F.binary_cross_entropy(input, target, reduction=none):
-(t * log p + (1 - t) * log (1 - p)); torch additionally clamps each log
term at -100, which no modelled claim depends on. -/
noncomputable def binary_cross_entropy_entry (p t : ℝ) : ℝ :=
  -(t * Real.log p + (1 - t) * Real.log (1 - p))

/-- cls_cost for one (valid prior, gt) pair (lines 126-132): binary cross
entropy between the square roots of the class scores and the one-hot label
vector, summed over the class dimension. -/
noncomputable def cls_cost_entry (scores onehot : List ℝ) : ℝ :=
  (List.zipWith (fun p t => binary_cross_entropy_entry (Real.sqrt p) t) scores onehot).sum

/-- F.one_hot(label, num_classes) cast to float.  Valid labels satisfy
0 ≤ label < num_classes (torch raises on others, a case no modelled claim
exercises). -/
def one_hot [LinearOrderedCommRing α] (num_classes : Nat) (label : ℤ) : List α :=
  (List.range num_classes).map (fun c => if (c : ℤ) = label then 1 else 0)

/-- Modelled from the spec: the repository's bbox_overlaps (imported from
mmdet.core; its file is not among the provided sources) computes the
IoUMatrix, the intersection-over-union of a decoded box and a ground-truth
box in [0,1] — the ratio of overlap area to union area. -/
noncomputable def bbox_overlap (b g : Box ℝ) : ℝ :=
  let inter := max 0 (min b.x2 g.x2 - max b.x1 g.x1) *
    max 0 (min b.y2 g.y2 - max b.y1 g.y1)
  let area1 := (b.x2 - b.x1) * (b.y2 - b.y1)
  let area2 := (g.x2 - g.x1) * (g.y2 - g.y1)
  inter / (area1 + area2 - inter)

/-- Line 134: one entry of cost_matrix = cls_cost + 3.0 * iou_cost + INF *
(~is_in_boxes_and_center); the negated boolean casts to 0 for a pair that is
in box and center and to 1 otherwise. -/
noncomputable def cost_entry (cls iou_c : ℝ) (in_box_and_center : Bool) : ℝ :=
  cls + 3.0 * iou_c + simOTA_INF * (if in_box_and_center then 0 else 1)

/-- SimOTAAssigner._assign (lines 83-142).  On success the tuple is
(gt_matched_classes, valid_mask, pred_ious_this_matching, matched_gt_inds,
num_fg); the num_valid-fold repeats of the one-hot labels and score rows of
the Python broadcasting are realised by the per-row maps. -/
noncomputable def _assign (center_radius : ℝ) (candidate_topk : Nat)
    (pred_scores : List (List ℝ)) (priors : List (Prior ℝ))
    (decoded_bboxes : List (Box ℝ)) (gt_bboxes : List (Box ℝ))
    (gt_labels : List ℤ) (eps : ℝ) :
    Except TorchError (List ℤ × List Bool × List ℝ × List Nat × Nat) :=
  let num_gt := gt_bboxes.length
  let info := get_in_gt_and_in_center_info center_radius priors gt_bboxes
  let valid_mask := info.1
  let is_in_boxes_and_center := info.2
  let valid_decoded_bbox := maskRows valid_mask decoded_bboxes
  let valid_pred_scores := maskRows valid_mask pred_scores
  let pair_wise_ious :=
    valid_decoded_bbox.map (fun b => gt_bboxes.map (fun g => bbox_overlap b g))
  let iou_cost := pair_wise_ious.map (fun row => row.map (fun x => iou_cost_entry x eps))
  let num_classes := (pred_scores.headD []).length
  let gt_onehot_label : List (List ℝ) := gt_labels.map (fun l => one_hot num_classes l)
  let cls_cost := valid_pred_scores.map
    (fun srow => gt_onehot_label.map (fun oh => cls_cost_entry srow oh))
  let cost_matrix := List.zipWith
    (fun rows ibcrow => List.zipWith (fun cx b => cost_entry cx.1 cx.2 b) rows ibcrow)
    (List.zipWith (fun crow irow => crow.zip irow) cls_cost iou_cost)
    is_in_boxes_and_center
  match dynamic_k_matching candidate_topk cost_matrix pair_wise_ious gt_labels num_gt
      valid_mask with
  | .error e => .error e
  | .ok (num_fg, gt_matched_classes, pred_ious_this_matching, matched_gt_inds,
      new_valid_mask) =>
    .ok (gt_matched_classes, new_valid_mask, pred_ious_this_matching, matched_gt_inds,
      num_fg)

/-- C6: the combined cost equals cls_cost + 3.0·iou_cost + LARGE_CONSTANT ·
(1 − in_box_and_center) with iou_cost = −log(iou + eps) at the default eps =
1e-7; and for iou ≥ 0 the log argument iou + eps is strictly positive, so an
IoU of exactly 0 gives a finite cost and raises nothing. -/
theorem cost_entry_formula (cls iou eps : ℝ) (b : Bool) (h0 : 0 ≤ iou)
    (heps : eps = 1e-7) :
    cost_entry cls (iou_cost_entry iou eps) b =
      cls + 3.0 * (-Real.log (iou + eps)) + simOTA_INF * (1 - (if b then 1 else 0)) ∧
    0 < iou + eps := by
  constructor
  · unfold cost_entry iou_cost_entry
    cases b <;> norm_num
  · rw [heps]
    have h7 : (0 : ℝ) < 1e-7 := by norm_num
    linarith

/-- Witness for C6 at iou = 0 (the edge case the eps guard exists for). -/
theorem cost_entry_formula_witness :
    ((0 : ℝ) ≤ 0 ∧ (1e-7 : ℝ) = 1e-7) ∧
    (cost_entry 0 (iou_cost_entry 0 1e-7) false =
        0 + 3.0 * (-Real.log ((0 : ℝ) + 1e-7)) +
          simOTA_INF * (1 - (if false then 1 else 0)) ∧
      (0 : ℝ) < 0 + 1e-7) :=
  ⟨⟨le_refl 0, rfl⟩, cost_entry_formula 0 0 1e-7 false (le_refl 0) rfl⟩

/-- C2 counterexample: a concrete call with zero ground truths raises: the
validity mask is all-false, there are zero valid priors, and the candidate
top-k selection (k = 10 over 0 rows) fails with the out-of-range
RuntimeError, so no AssignmentResult is returned. -/
theorem assign_zero_gt_raises :
    _assign 2.5 10 [[0.5]] [⟨0, 0, 8, 8⟩] [⟨0, 0, 1, 1⟩] [] [] 1e-7 =
      Except.error TorchError.topkOutOfRange := by
  rfl

/-- C2 amended: with zero ground truths the computed validity mask is indeed
all-false (so there are zero valid priors), but the call then raises the
top-k out-of-range RuntimeError (candidate_topk, default 10, exceeds the
zero valid rows) instead of short-circuiting to an empty AssignmentResult. -/
theorem assign_zero_gt_behavior (center_radius : ℝ) (candidate_topk : Nat)
    (pred_scores : List (List ℝ)) (priors : List (Prior ℝ))
    (decoded_bboxes : List (Box ℝ)) (eps : ℝ) (h : 1 ≤ candidate_topk) :
    (get_in_gt_and_in_center_info center_radius priors ([] : List (Box ℝ))).1 =
      priors.map (fun _ => false) ∧
    _assign center_radius candidate_topk pred_scores priors decoded_bboxes [] [] eps =
      Except.error TorchError.topkOutOfRange := by
  have hmask : (get_in_gt_and_in_center_info center_radius priors ([] : List (Box ℝ))).1 =
      priors.map (fun _ => false) := by
    rw [info_fst_eq_map]
    exact List.map_congr_left (fun p hp => by simp)
  have hvm : ∀ b ∈ (get_in_gt_and_in_center_info center_radius priors
      ([] : List (Box ℝ))).1, b = false := by
    rw [hmask]
    intro b hb
    rcases List.mem_map.mp hb with ⟨_, _, rfl⟩
    rfl
  refine ⟨hmask, ?_⟩
  show (let num_gt := ([] : List (Box ℝ)).length
    let info := get_in_gt_and_in_center_info center_radius priors ([] : List (Box ℝ))
    let valid_mask := info.1
    let is_in_boxes_and_center := info.2
    let valid_decoded_bbox := maskRows valid_mask decoded_bboxes
    let valid_pred_scores := maskRows valid_mask pred_scores
    let pair_wise_ious :=
      valid_decoded_bbox.map (fun b => ([] : List (Box ℝ)).map (fun g => bbox_overlap b g))
    let iou_cost := pair_wise_ious.map (fun row => row.map (fun x => iou_cost_entry x eps))
    let num_classes := (pred_scores.headD []).length
    let gt_onehot_label : List (List ℝ) := ([] : List ℤ).map (fun l => one_hot num_classes l)
    let cls_cost := valid_pred_scores.map
      (fun srow => gt_onehot_label.map (fun oh => cls_cost_entry srow oh))
    let cost_matrix := List.zipWith
      (fun rows ibcrow => List.zipWith (fun cx b => cost_entry cx.1 cx.2 b) rows ibcrow)
      (List.zipWith (fun crow irow => crow.zip irow) cls_cost iou_cost)
      is_in_boxes_and_center
    match dynamic_k_matching candidate_topk cost_matrix pair_wise_ious ([] : List ℤ) num_gt
        valid_mask with
    | Except.error e => Except.error e
    | Except.ok (num_fg, gt_matched_classes, pred_ious_this_matching, matched_gt_inds,
        new_valid_mask) =>
      Except.ok (gt_matched_classes, new_valid_mask, pred_ious_this_matching,
        matched_gt_inds, num_fg)) = Except.error TorchError.topkOutOfRange
  simp only []
  rw [maskRows_false _ decoded_bboxes hvm]
  unfold dynamic_k_matching dynamic_ks
  simp only [List.map_nil, List.length_nil]
  rw [if_neg (by omega)]

/-- Witness for C2 amended at a concrete zero-ground-truth input. -/
theorem assign_zero_gt_behavior_witness :
    1 ≤ 10 ∧
    ((get_in_gt_and_in_center_info (2.5 : ℝ) [⟨1, 1, 4, 4⟩] ([] : List (Box ℝ))).1 =
        [(⟨1, 1, 4, 4⟩ : Prior ℝ)].map (fun _ => false) ∧
      _assign 2.5 10 [[0.25]] [⟨1, 1, 4, 4⟩] [⟨0, 0, 2, 2⟩] [] [] 1e-7 =
        Except.error TorchError.topkOutOfRange) :=
  ⟨by norm_num,
    assign_zero_gt_behavior 2.5 10 [[0.25]] [⟨1, 1, 4, 4⟩] [⟨0, 0, 2, 2⟩] 1e-7
      (by norm_num)⟩

end SimOTA
